import Mathlib

/-!
Verification of the image-insights-api result cache, cache-key derivation,
request orchestration, histogram bucketing and metrics validation, as a
shallow embedding of the Python sources under src/.

Conventions of the embedding:
* Python byte strings are `List Nat` (one entry per byte).
* Python floats (monotonic timestamps, luminance values, percentages) are
  embedded as rationals; rounding slips of binary floats are not modelled,
  since none of the stated properties hinge on them.
* Python dicts stored in the cache are flat association lists; object
  identity and mutation are modelled by a small explicit heap, so that the
  copy-on-read / copy-on-write behaviour of the cache is a provable
  property and not an artefact of value semantics.
* Fallible code returns `Except`.
-/

namespace ImageInsights

/-- An analysis-result dict (`dict[str, Any]` in the source), modelled as a
flat association list from field name to an integer-coded value.  Only the
structural content matters to the cache. -/
abbrev Dict := List (String × Int)

/-- An explicit heap of dict objects.  An address is an index into `data`;
allocation appends.  This models Python object identity: two addresses are
the same object exactly when they are equal. -/
structure Heap where
  data : List Dict

/-- Dereference an address (out-of-range reads default to the empty dict). -/
def Heap.read (h : Heap) (a : Nat) : Dict := h.data.getD a []

/-- Allocate a fresh object holding `d` (this is what `copy.deepcopy`
produces: a new object, structurally equal to the source). -/
def Heap.alloc (h : Heap) (d : Dict) : Heap × Nat :=
  (⟨h.data ++ [d]⟩, h.data.length)

/-- Mutate the object at address `a` in place. -/
def Heap.write (h : Heap) (a : Nat) (d : Dict) : Heap :=
  ⟨h.data.set a d⟩

/-- One entry of the `OrderedDict` in `ImageAnalysisCache._store`:
key, monotonic insertion timestamp, and the address of the stored
deep-copied dict.  List order is the LRU order: head = least recently
used, tail = most recently used. -/
abbrev Entry := String × ℚ × Nat

/-- State of `ImageAnalysisCache` (src/app/core/cache.py).  The lock is not
modelled: every operation is embedded as one atomic step, which is exactly
what the lock guarantees. -/
structure CacheState where
  maxSize : Nat
  ttl : ℚ
  store : List Entry

/-- Remove every entry with key `k` (in reachable states keys are unique,
so this is `del store[k]`). -/
def eraseKey (s : List Entry) (k : String) : List Entry :=
  s.filter (fun e => e.1 != k)

/-- Fresh cache, as built by `ImageAnalysisCache.__init__`. -/
def CacheState.empty (maxSize : Nat) (ttl : ℚ) : CacheState :=
  ⟨maxSize, ttl, []⟩

/-- `ImageAnalysisCache.get` (cache.py lines 97-122).  Looks the key up;
misses on absence; on an expired entry (`now - timestamp > ttl`) deletes it
and misses; otherwise moves the entry to the most-recently-used end and
returns the address of a fresh deep copy of the stored dict. -/
def CacheState.get (c : CacheState) (h : Heap) (now : ℚ) (k : String) :
    CacheState × Heap × Option Nat :=
  match c.store.find? (fun e => e.1 == k) with
  | none => (c, h, none)
  | some e =>
    if now - e.2.1 > c.ttl then
      (⟨c.maxSize, c.ttl, eraseKey c.store k⟩, h, none)
    else
      let moved := eraseKey c.store k ++ [e]
      let copied := h.alloc (h.read e.2.2)
      (⟨c.maxSize, c.ttl, moved⟩, copied.1, some copied.2)

/-- `ImageAnalysisCache.set` (cache.py lines 124-146).  Stores a deep copy
of the dict the caller passes by reference (`callerAddr`), stamped with the
current monotonic time, at the most-recently-used end (an existing key is
first moved to the end, so re-insertion refreshes both position and TTL);
then, if over capacity, evicts exactly the least-recently-used entry. -/
def CacheState.set (c : CacheState) (h : Heap) (now : ℚ) (k : String)
    (callerAddr : Nat) : CacheState × Heap :=
  let copied := h.alloc (h.read callerAddr)
  let inserted := eraseKey c.store k ++ [(k, now, copied.2)]
  let bounded := if c.maxSize < inserted.length then inserted.tail else inserted
  (⟨c.maxSize, c.ttl, bounded⟩, copied.1)

/-- `ImageAnalysisCache.clear` (cache.py lines 148-151). -/
def CacheState.clear (c : CacheState) : CacheState :=
  ⟨c.maxSize, c.ttl, []⟩

/-- `ImageAnalysisCache.size` (cache.py lines 153-157). -/
def CacheState.size (c : CacheState) : Nat := c.store.length

/-- One public cache operation, for stating whole-history invariants. -/
inductive CacheOp where
  | opGet (k : String) (t : ℚ)
  | opSet (k : String) (callerAddr : Nat) (t : ℚ)
  | opClear

/-- Run a sequence of cache operations. -/
def runOps (c : CacheState) (h : Heap) : List CacheOp → CacheState × Heap
  | [] => (c, h)
  | CacheOp.opGet k t :: rest =>
    let r := c.get h t k
    runOps r.1 r.2.1 rest
  | CacheOp.opSet k a t :: rest =>
    let r := c.set h t k a
    runOps r.1 r.2 rest
  | CacheOp.opClear :: rest => runOps c.clear h rest

/-! ## Cache key derivation (src/app/core/cache.py, compute_cache_key) -/

/-- The ASCII bytes of the tag "url:" prepended to a URL primary component
(cache.py line 59). -/
def urlTagBytes : List Nat := [117, 114, 108, 58]

/-- The ASCII bytes of the tag "bytes:" prepended to an upload primary
component (cache.py line 62). -/
def imageTagBytes : List Nat := [98, 121, 116, 101, 115, 58]

/-- The separator byte between hashed components, ASCII bar (cache.py
lines 67 and 69). -/
def sepByte : Nat := 124

/-- The byte joining sorted metric names, ASCII comma (cache.py line 68). -/
def commaByte : Nat := 44

/-- Lexicographic order on byte strings: the order `sorted` uses on the
metric-name strings (ASCII names compare identically as code points and as
UTF-8 bytes). -/
def lexLe : List Nat → List Nat → Bool
  | [], _ => true
  | _ :: _, [] => false
  | a :: xs, b :: ys =>
    if a < b then true else if b < a then false else lexLe xs ys

/-- Insert into a lexicographically sorted list of byte strings. -/
def insertLe (x : List Nat) : List (List Nat) → List (List Nat)
  | [] => [x]
  | y :: ys => if lexLe x y then x :: y :: ys else y :: insertLe x ys

/-- The `sorted` builtin applied to the metric-name set, as insertion sort.
The set argument of `compute_cache_key` is embedded as the list of its
elements; sorting makes the result independent of that listing order. -/
def pySorted (l : List (List Nat)) : List (List Nat) :=
  l.foldr insertLe []

/-- Comma-join of a list of byte strings (the `",".join(...)` call on
cache.py line 68). -/
def joinComma : List (List Nat) → List Nat
  | [] => []
  | [m] => m
  | m :: m2 :: rest => m ++ commaByte :: joinComma (m2 :: rest)

/-- The metrics component mixed into the hash: `",".join(sorted(metrics))`
(cache.py line 68). -/
def metricsJoined (ms : List (List Nat)) : List Nat :=
  joinComma (pySorted ms)

/-- The exact byte string fed to the hash object by the sequence of
`hasher.update` calls on cache.py lines 58-70: the tagged primary
component, a separator, the joined metrics, a separator, and the edge mode
(absent edge mode contributes the empty string, line 70). -/
def keyPayload (primary : List Nat) (ms : List (List Nat))
    (edge : Option (List Nat)) : List Nat :=
  primary ++ sepByte :: (metricsJoined ms ++ sepByte :: edge.getD [])

/-- Modelled from the spec: the digest algorithm `hashlib.blake2b` is the
Python standard library, not part of src/.  Spec section 4.1 requires only
a deterministic 512-bit-class digest whose exact algorithm is not
load-bearing; it is modelled as a deterministic 64-byte function of the
payload.  Collision resistance is not modelled, so every claim about key
uniqueness is stated on the pre-hash payload bytes. -/
def blake2bBytes (payload : List Nat) : List Nat :=
  (List.range 64).map
    (fun i => payload.foldl (fun acc b => (acc * 31 + b + 7) % 256) i % 256)

/-- Hex character for a nibble (lower-case hex, as `hexdigest` emits). -/
def hexChar (n : Nat) : Char :=
  Char.ofNat (if n < 10 then 48 + n else 87 + n)

/-- Modelled from the spec: `hasher.hexdigest()` renders the 64-byte
digest as a 128-character lower-case hex string. -/
def hexdigest (payload : List Nat) : String :=
  ⟨(blake2bBytes payload).foldr
    (fun b acc => hexChar (b / 16) :: hexChar (b % 16) :: acc) []⟩

/-- `compute_cache_key` (cache.py lines 23-71) at its declared signature:
positional order `(metrics, edge_mode, image_bytes, url)`.  Raising
`ValueError` is embedded as `Except.error`.  Exactly one of `image_bytes`
and `url` must be supplied (line 52); the primary component is the tagged
URL bytes or the tagged image bytes (lines 58-63), and the remaining
components are mixed in with separators (lines 67-70). -/
def compute_cache_key (metrics : List (List Nat)) (edge_mode : Option (List Nat))
    (image_bytes : Option (List Nat)) (url : Option (List Nat)) :
    Except String String :=
  if (image_bytes.isNone && url.isNone) || (image_bytes.isSome && url.isSome) then
    Except.error "ValueError: Exactly one of image_bytes or url must be provided"
  else
    let primary :=
      match url with
      | some u => urlTagBytes ++ u
      | none => imageTagBytes ++ image_bytes.getD []
    Except.ok (hexdigest (keyPayload primary metrics edge_mode))

/-! ## The orchestrator call sites (src/app/api/image_analysis.py)

Both endpoints call `compute_cache_key(contents, requested_metrics,
validated_edge_mode)` positionally (lines 296 and 437), although the
declared parameter order in cache.py is `(metrics, edge_mode, image_bytes,
url)`.  To embed that mis-bound call faithfully we model the function once
more at the dynamically-typed level, where each argument is an arbitrary
Python value and the type errors Python would raise become `Except.error`.
-/

/-- A dynamically-typed Python value, covering the shapes that reach
`compute_cache_key` from the orchestrator. -/
inductive PyVal where
  | pyNone
  | pyBytes (b : List Nat)
  | pyStr (s : List Nat)
  | pyStrSet (ms : List (List Nat))

/-- Whether a value `is None`. -/
def PyVal.isNone : PyVal → Bool
  | PyVal.pyNone => true
  | _ => false

/-- `compute_cache_key` as executed by the dynamically-typed interpreter:
the statements of cache.py lines 52-71 in order, with the runtime error
each statement raises on an ill-typed operand.  `hasher.update` requires a
bytes-like operand (a `str` raises `TypeError`), `sorted`/`join` of the
metrics requires a set of strings, and `(edge_mode or "").encode()`
requires `edge_mode` to be a string or falsy. -/
def compute_cache_key_dyn (metrics edge_mode image_bytes url : PyVal) :
    Except String String :=
  if (image_bytes.isNone && url.isNone) || (!image_bytes.isNone && !url.isNone) then
    Except.error "ValueError: Exactly one of image_bytes or url must be provided"
  else
    match
      (match url with
       | PyVal.pyNone =>
         match image_bytes with
         | PyVal.pyBytes b => Except.ok (imageTagBytes ++ b)
         | _ => Except.error "TypeError: object supporting the buffer API required"
       | PyVal.pyStr s => Except.ok (urlTagBytes ++ s)
       | _ => Except.error "AttributeError: encode") with
    | Except.error e => Except.error e
    | Except.ok primary =>
      match
        (match metrics with
         | PyVal.pyStrSet ms => Except.ok (metricsJoined ms)
         | _ => Except.error "TypeError: sequence item 0 is not a str") with
      | Except.error e => Except.error e
      | Except.ok m =>
        match
          (match edge_mode with
           | PyVal.pyNone => Except.ok ([] : List Nat)
           | PyVal.pyStr s => Except.ok s
           | PyVal.pyStrSet ms =>
             if ms.isEmpty then Except.ok [] else Except.error "AttributeError: encode"
           | _ => Except.error "AttributeError: encode") with
        | Except.error e => Except.error e
        | Except.ok e =>
          Except.ok (hexdigest (primary ++ sepByte :: (m ++ sepByte :: e)))

/-- The Python value the orchestrator passes for `edge_mode` into the
third positional slot (`image_bytes`): the validated edge mode, a string
or `None`. -/
def pyOfEdge : Option (List Nat) → PyVal
  | none => PyVal.pyNone
  | some s => PyVal.pyStr s

/-- The key-derivation call exactly as both endpoints issue it
(image_analysis.py lines 296 and 437):
`compute_cache_key(contents, requested_metrics, validated_edge_mode)`,
which binds `metrics := contents`, `edge_mode := requested_metrics`,
`image_bytes := validated_edge_mode`, `url := None`. -/
def orchestratorKey (contents : List Nat) (ms : List (List Nat))
    (em : Option (List Nat)) : Except String String :=
  compute_cache_key_dyn (PyVal.pyBytes contents) (PyVal.pyStrSet ms)
    (pyOfEdge em) PyVal.pyNone

/-- Error outcome of a request: an `HTTPException` with a status code, or
an uncaught Python exception (which the framework reports as an internal
server error). -/
inductive ReqError where
  | httpError (status : Nat)
  | uncaught (msg : String)

/-- Set a field of a response dict (plain `d[k] = v`). -/
def setField (d : Dict) (k : String) (v : Int) : Dict :=
  d.filter (fun p => p.1 != k) ++ [(k, v)]

/-- The `analyze_image` endpoint (image_analysis.py lines 238-334) after
parameter validation: `contents` are the validated upload bytes, `ms` the
validated metric set, `em` the validated edge mode.  `process` stands for
`_process_image_bytes` (PIL decoding plus the pure luminance engine, both
outside the cache core); `none` means the bytes fail to decode, in which
case the source raises `HTTPException(400)` (lines 92-96).  When caching
is enabled the source first derives the key (line 296), consults the cache
(line 297), on a hit stamps and returns the copy (lines 298-307), and only
after a successful analysis writes the response to the cache (line 317);
timing fields are not modelled. -/
def analyze_image (cacheEnabled : Bool) (process : List Nat → Option Dict)
    (c : CacheState) (h : Heap) (now : ℚ) (contents : List Nat)
    (ms : List (List Nat)) (em : Option (List Nat)) :
    CacheState × Heap × Except ReqError Dict :=
  if cacheEnabled then
    match orchestratorKey contents ms em with
    | Except.error e => (c, h, Except.error (ReqError.uncaught e))
    | Except.ok key =>
      match c.get h now key with
      | (c1, h1, some addr) =>
        let h2 := h1.write addr (setField (h1.read addr) "cached" 1)
        (c1, h2, Except.ok (h2.read addr))
      | (c1, h1, none) =>
        match process contents with
        | none => (c1, h1, Except.error (ReqError.httpError 400))
        | some resp0 =>
          let resp := setField resp0 "cached" 0
          let alloc1 := h1.alloc resp
          let stored := c1.set alloc1.1 now key alloc1.2
          (stored.1, stored.2, Except.ok resp)
  else
    match process contents with
    | none => (c, h, Except.error (ReqError.httpError 400))
    | some resp0 => (c, h, Except.ok (setField resp0 "cached" 0))

/-- The `analyze_image_from_url` endpoint (image_analysis.py lines
390-475): it first downloads the image via the URL collaborator
(`download` is the outcome of `validate_and_download_from_url` for the
requested URL; `none` is a fetch/validation failure, reported as a client
error), and from there on runs the same sequence as the upload endpoint on
the downloaded bytes - including the identical mis-bound
`compute_cache_key(contents, requested_metrics, validated_edge_mode)` call
on line 437.  The URL itself is never passed to key derivation. -/
def analyze_image_from_url (cacheEnabled : Bool)
    (download : Option (List Nat)) (process : List Nat → Option Dict)
    (c : CacheState) (h : Heap) (now : ℚ)
    (ms : List (List Nat)) (em : Option (List Nat)) :
    CacheState × Heap × Except ReqError Dict :=
  match download with
  | none => (c, h, Except.error (ReqError.httpError 400))
  | some contents => analyze_image cacheEnabled process c h now contents ms em

/-! ## Histogram (src/app/core/histogram.py) -/

/-- `settings.HISTOGRAM_BUCKETS` (config.py line 33). -/
def HISTOGRAM_BUCKETS : Nat := 10

/-- `settings.LUMINANCE_MAX` (config.py line 34). -/
def LUMINANCE_MAX : Nat := 255

/-- `bucket_size = (max_val + 1) / num_buckets` (histogram.py line 34). -/
def bucketSize : ℚ := ((LUMINANCE_MAX : ℚ) + 1) / (HISTOGRAM_BUCKETS : ℚ)

/-- Round half to even at integer precision, as the `round` builtin. -/
def pyRoundInt (x : ℚ) : ℤ :=
  let f := Int.floor x
  let r := x - (f : ℚ)
  if r < 1 / 2 then f
  else if 1 / 2 < r then f + 1
  else if f % 2 = 0 then f else f + 1

/-- The `round(value, 1)` builtin: round half-to-even to one decimal. -/
def pyRound1 (x : ℚ) : ℚ :=
  (pyRoundInt (x * 10) : ℚ) / 10

/-- One histogram bucket: the printed range bounds and the percentage
(the `range` label `f"{start}-{end}"` is kept as the bound pair). -/
structure HistogramBucket where
  rangeStart : ℤ
  rangeEnd : ℤ
  percent : ℚ
deriving DecidableEq

/-- `calculate_histogram` (histogram.py lines 17-63).  The luminance grid
is flattened; an empty grid returns an empty list; otherwise for each
bucket index `i`, `start = int(i * bucket_size)` and
`end = int((i + 1) * bucket_size) - 1` (for non-negative operands `int`
truncation is the floor), the last bucket ends at `max_val` and counts
cells with `start <= x <= max_val`, every other bucket counts cells with
`start <= x < (i + 1) * bucket_size`, and the percentage is
`round(count / total * 100, 1)`. -/
def calculate_histogram (luminance : List (List ℚ)) : List HistogramBucket :=
  let flat := luminance.flatten
  let total := flat.length
  if total = 0 then []
  else
    (List.range HISTOGRAM_BUCKETS).map (fun i =>
      let start : ℤ := Int.floor ((i : ℚ) * bucketSize)
      if i = HISTOGRAM_BUCKETS - 1 then
        let count := flat.countP
          (fun x => decide ((start : ℚ) ≤ x) && decide (x ≤ (LUMINANCE_MAX : ℚ)))
        ⟨start, (LUMINANCE_MAX : ℤ),
          pyRound1 ((count : ℚ) / (total : ℚ) * 100)⟩
      else
        let stop : ℤ := Int.floor (((i : ℚ) + 1) * bucketSize) - 1
        let count := flat.countP
          (fun x => decide ((start : ℚ) ≤ x) && decide (x < ((i : ℚ) + 1) * bucketSize))
        ⟨start, stop, pyRound1 ((count : ℚ) / (total : ℚ) * 100)⟩)

/-! ## Metrics validation (src/app/core/validators.py, validate_metrics) -/

/-- The `str.split(",")` builtin: splits at every comma; the empty string
yields one empty segment. -/
def pySplitComma : List Char → List (List Char)
  | [] => [[]]
  | c :: rest =>
    if c = ',' then [] :: pySplitComma rest
    else
      match pySplitComma rest with
      | [] => [[c]]
      | s :: ss => (c :: s) :: ss

/-- Whitespace as recognised by `str.strip` (the ASCII cases; the inputs
here are query-parameter metric names). -/
def pyIsSpace (c : Char) : Bool :=
  (c == ' ') || (c == '\t') || (c == '\n') || (c == '\r') ||
    (c == '\x0b') || (c == '\x0c')

/-- The `str.strip()` builtin: drop whitespace from both ends. -/
def pyStrip (l : List Char) : List Char :=
  ((l.dropWhile pyIsSpace).reverse.dropWhile pyIsSpace).reverse

/-- The `str.lower()` builtin on the relevant alphabet. -/
def pyLower (l : List Char) : List Char := l.map Char.toLower

/-- `valid_metrics` (validators.py line 66). -/
def validMetrics : Finset (List Char) :=
  {"brightness".data, "median".data, "histogram".data}

/-- `validate_metrics` (validators.py lines 53-87).  `None` yields the
default `{"brightness"}`; otherwise the string is split at commas, blank
segments are dropped, the rest are stripped and lowercased into a set;
any names outside `valid_metrics` raise `HTTPException(400)` carrying
exactly those invalid names (embedded as `Except.error`); an empty
selection falls back to the default. -/
def validate_metrics (metrics : Option (List Char)) :
    Except (Finset (List Char)) (Finset (List Char)) :=
  match metrics with
  | none => Except.ok {"brightness".data}
  | some s =>
    let requested : Finset (List Char) :=
      (((pySplitComma s).filter (fun m => !(pyStrip m).isEmpty)).map
        (fun m => pyLower (pyStrip m))).toFinset
    let invalid := requested \ validMetrics
    if invalid.Nonempty then Except.error invalid
    else if requested = ∅ then Except.ok {"brightness".data}
    else Except.ok requested

/-! ## Helper lemmas about the heap -/

theorem read_alloc (h : Heap) (d : Dict) : (h.alloc d).1.read (h.alloc d).2 = d := by
  simp [Heap.alloc, Heap.read, List.getD_eq_getElem?_getD]

theorem read_alloc_lt (h : Heap) (d : Dict) (a : Nat) (ha : a < h.data.length) :
    (h.alloc d).1.read a = h.read a := by
  simp [Heap.alloc, Heap.read, List.getD_eq_getElem?_getD, List.getElem?_append, ha]

theorem read_write_ne (h : Heap) (a b : Nat) (d : Dict) (hab : a ≠ b) :
    (h.write a d).read b = h.read b := by
  simp [Heap.write, Heap.read, List.getD_eq_getElem?_getD, List.getElem?_set_ne hab]

theorem read_append_offset (h : Heap) (l : List Dict) (i : Nat) :
    (⟨h.data ++ l⟩ : Heap).read (h.data.length + i) = l.getD i [] := by
  simp [Heap.read, List.getD_eq_getElem?_getD, List.getElem?_append_right]

/-! ## Helper lemmas about the LRU store -/

theorem clean_eraseKey (s : List Entry) (k : String) :
    ∀ x ∈ eraseKey s k, (x.1 == k) = false := by
  intro x hx
  have := List.of_mem_filter hx
  simpa [bne] using this

theorem eraseKey_of_clean (s : List Entry) (k : String)
    (hs : ∀ x ∈ s, (x.1 == k) = false) : eraseKey s k = s := by
  induction s with
  | nil => rfl
  | cons a s ih =>
    have ha := hs a (by simp)
    have hbne : (a.1 != k) = true := by simp [bne, ha]
    simp only [eraseKey, List.filter_cons, hbne, if_true]
    exact congrArg (a :: ·) (ih fun x hx => hs x (List.mem_cons_of_mem a hx))

theorem clean_tail (l : List Entry) (k : String)
    (hl : ∀ x ∈ l, (x.1 == k) = false) : ∀ x ∈ l.tail, (x.1 == k) = false :=
  fun x hx => hl x (List.mem_of_mem_tail hx)

theorem find?_clean (l : List Entry) (k : String)
    (hl : ∀ x ∈ l, (x.1 == k) = false) :
    l.find? (fun e => e.1 == k) = none :=
  List.find?_eq_none.mpr (fun x hx => by simp [hl x hx])

theorem length_filter_lt {α : Type} (p : α → Bool) (l : List α) (x : α)
    (hx : x ∈ l) (hpx : p x = false) : (l.filter p).length < l.length := by
  induction l with
  | nil => cases hx
  | cons a l ih =>
    rcases List.mem_cons.mp hx with rfl | hx2
    · simp only [List.filter_cons, hpx]
      exact Nat.lt_succ_of_le (List.length_filter_le p l)
    · cases hpa : p a with
      | true =>
        simp only [List.filter_cons, hpa, if_true, List.length_cons]
        exact Nat.succ_lt_succ (ih hx2)
      | false =>
        simp only [List.filter_cons, hpa, if_false]
        exact Nat.lt_succ_of_lt (ih hx2)

/-- A `get` that finds the key at position `l1 ++ entry :: l2` (all other
entries clean) and sees it unexpired: it moves the entry to the end and
hands out a fresh copy. -/
theorem get_hit (c : CacheState) (h : Heap) (now : ℚ) (k : String)
    (l1 l2 : List Entry) (ts : ℚ) (a : Nat)
    (hstore : c.store = l1 ++ (k, ts, a) :: l2)
    (h1 : ∀ x ∈ l1, (x.1 == k) = false) (h2 : ∀ x ∈ l2, (x.1 == k) = false)
    (hfresh : ¬ (now - ts > c.ttl)) :
    c.get h now k =
      (⟨c.maxSize, c.ttl, (l1 ++ l2) ++ [(k, ts, a)]⟩,
        (h.alloc (h.read a)).1, some (h.alloc (h.read a)).2) := by
  have hfind : c.store.find? (fun e => e.1 == k) = some (k, ts, a) := by
    rw [hstore, List.find?_append, find?_clean l1 k h1]
    simp [List.find?_cons]
  have herase : eraseKey c.store k = l1 ++ l2 := by
    rw [hstore]
    simp only [eraseKey, List.filter_append, List.filter_cons]
    rw [show ((k, ts, a).1 != k) = false by simp [bne]]
    simp only [Bool.false_eq_true, if_false]
    rw [← eraseKey, ← eraseKey, eraseKey_of_clean l1 k h1, eraseKey_of_clean l2 k h2]
  unfold CacheState.get
  rw [hfind]
  simp [hfresh, herase]

/-- A `get` of a key no entry carries: a pure miss, no state change. -/
theorem get_miss (c : CacheState) (h : Heap) (now : ℚ) (k : String)
    (hclean : ∀ x ∈ c.store, (x.1 == k) = false) :
    c.get h now k = (c, h, none) := by
  unfold CacheState.get
  rw [find?_clean c.store k hclean]

/-- A `get` that finds the key expired: the entry is deleted, the read
misses, the heap is untouched. -/
theorem get_expired (c : CacheState) (h : Heap) (now ts : ℚ) (k : String) (a : Nat)
    (hfind : c.store.find? (fun e => e.1 == k) = some (k, ts, a))
    (hexp : now - ts > c.ttl) :
    c.get h now k = (⟨c.maxSize, c.ttl, eraseKey c.store k⟩, h, none) := by
  unfold CacheState.get
  rw [hfind]
  simp [hexp]

/-- After any `set` on a cache with capacity at least 1, the store is a
clean prefix followed by the freshly written entry. -/
theorem set_store_shape (c : CacheState) (h : Heap) (t : ℚ) (k : String) (av : Nat)
    (hmax : 1 ≤ c.maxSize) :
    ∃ l, (c.set h t k av).1.store = l ++ [(k, t, h.data.length)] ∧
      ∀ x ∈ l, (x.1 == k) = false := by
  unfold CacheState.set
  by_cases hc : c.maxSize < (eraseKey c.store k ++ [(k, t, h.data.length)]).length
  · refine ⟨(eraseKey c.store k).tail, ?_, clean_tail _ _ (clean_eraseKey c.store k)⟩
    simp only [Heap.alloc, hc, if_true]
    have hne : eraseKey c.store k ≠ [] := by
      intro hnil
      rw [hnil] at hc
      simp at hc
      omega
    obtain ⟨y, ys, hys⟩ := List.exists_cons_of_ne_nil hne
    simp [hys]
  · exact ⟨eraseKey c.store k, by simp only [Heap.alloc, hc, if_false], clean_eraseKey c.store k⟩

/-! ## Size bookkeeping lemmas -/

theorem get_size_le (c : CacheState) (h : Heap) (now : ℚ) (k : String) :
    ((c.get h now k).1).size ≤ c.size := by
  unfold CacheState.get
  cases hfind : c.store.find? (fun e => e.1 == k) with
  | none => exact Nat.le_refl _
  | some e =>
    have hmem := List.mem_of_find?_eq_some hfind
    have hpe := List.find?_some hfind
    have hbne : (e.1 != k) = false := by simp [bne, hpe]
    by_cases hexp : now - e.2.1 > c.ttl
    · simp only [hexp, if_true]
      exact List.length_filter_le _ c.store
    · simp only [hexp, if_false]
      have hlt : (eraseKey c.store k).length < c.store.length := by
        unfold eraseKey
        exact length_filter_lt _ c.store e hmem hbne
      simp only [CacheState.size, List.length_append, List.length_cons, List.length_nil]
      omega

theorem get_maxSize (c : CacheState) (h : Heap) (now : ℚ) (k : String) :
    ((c.get h now k).1).maxSize = c.maxSize := by
  unfold CacheState.get
  cases hfind : c.store.find? (fun e => e.1 == k) with
  | none => rfl
  | some e =>
    by_cases hexp : now - e.2.1 > c.ttl
    · simp [hexp]
    · simp [hexp]

theorem set_size_le (c : CacheState) (h : Heap) (now : ℚ) (k : String) (a : Nat)
    (hle : c.size ≤ c.maxSize) : ((c.set h now k a).1).size ≤ c.maxSize := by
  have herase : (eraseKey c.store k).length ≤ c.store.length :=
    List.length_filter_le _ c.store
  simp only [CacheState.set, CacheState.size] at hle ⊢
  split
  · simp only [List.length_tail, List.length_append, List.length_cons, List.length_nil]
    omega
  · next hc =>
    simp only [List.length_append, List.length_cons, List.length_nil] at hc ⊢
    omega

theorem set_maxSize (c : CacheState) (h : Heap) (now : ℚ) (k : String) (a : Nat) :
    ((c.set h now k a).1).maxSize = c.maxSize := rfl

theorem runOps_size_le (ops : List CacheOp) (c : CacheState) (h : Heap)
    (hle : c.size ≤ c.maxSize) :
    ((runOps c h ops).1).size ≤ c.maxSize ∧ ((runOps c h ops).1).maxSize = c.maxSize := by
  induction ops generalizing c h with
  | nil => exact ⟨hle, rfl⟩
  | cons op rest ih =>
    cases op with
    | opGet k t =>
      have hg := get_size_le c h t k
      have hm := get_maxSize c h t k
      have := ih (c.get h t k).1 (c.get h t k).2.1 (by omega)
      simpa [runOps, hm] using this
    | opSet k a t =>
      have hs := set_size_le c h t k a hle
      have hm := set_maxSize c h t k a
      have := ih (c.set h t k a).1 (c.set h t k a).2 (by omega)
      simpa [runOps, hm] using this
    | opClear =>
      have := ih c.clear h (by simp [CacheState.clear, CacheState.size])
      simpa [runOps, CacheState.clear] using this

/-! ## Claim theorems -/

/-- C3: lazy TTL expiry on read.  If key `k` is present in the store with
insertion timestamp `ts` and the elapsed monotonic time exceeds the TTL
(`now - ts > ttl`), then `get k` removes the entry as a side effect and
returns absent; no other state changes.  With `ttl = 0` the hypothesis is
exactly a nonzero elapsed time (`now - ts > 0`), so any such read misses. -/
theorem lazy_ttl_expiry_on_read (c : CacheState) (h : Heap) (now ts : ℚ)
    (k : String) (a : Nat)
    (hfind : c.store.find? (fun e => e.1 == k) = some (k, ts, a))
    (hexp : now - ts > c.ttl) :
    c.get h now k = (⟨c.maxSize, c.ttl, eraseKey c.store k⟩, h, none) ∧
      ∀ x ∈ ((c.get h now k).1).store, x.1 ≠ k := by
  refine ⟨get_expired c h now ts k a hfind hexp, fun x hx => ?_⟩
  rw [get_expired c h now ts k a hfind hexp] at hx
  have := clean_eraseKey c.store k x hx
  simpa using this

/-- Witness for C3, at the configuration the spec singles out: a cache
with `ttl = 0` holding one entry inserted at time 0, read at time 1. -/
theorem lazy_ttl_expiry_on_read_witness :
    (⟨4, 0, [("k", 0, 0)]⟩ : CacheState).get ⟨[[("v", 7)]]⟩ 1 "k"
      = (⟨4, 0, []⟩, ⟨[[("v", 7)]]⟩, none) := by
  have h := (lazy_ttl_expiry_on_read ⟨4, 0, [("k", 0, 0)]⟩ ⟨[[("v", 7)]]⟩ 1 0 "k" 0
    (by simp [List.find?]) (by norm_num)).1
  simpa [eraseKey] using h

/-- C4: bounded size.  Starting from a freshly constructed cache with any
configured capacity (0 and 1 included) and running any finite sequence of
get/set/clear operations, the entry count never exceeds the capacity
(every intermediate state is the final state of a prefix of the
operation list); and with capacity 1, a `set` of a second, distinct key
evicts the first entry immediately, leaving exactly the new entry. -/
theorem bounded_size_invariant :
    (∀ (m : Nat) (ttl : ℚ) (h : Heap) (ops : List CacheOp),
      ((runOps (CacheState.empty m ttl) h ops).1).size ≤ m) ∧
    (∀ (ttl ts t : ℚ) (a0 av : Nat) (h : Heap) (k1 k2 : String), k1 ≠ k2 →
      ((⟨1, ttl, [(k1, ts, a0)]⟩ : CacheState).set h t k2 av).1.store
        = [(k2, t, h.data.length)]) := by
  constructor
  · intro m ttl h ops
    exact (runOps_size_le ops (CacheState.empty m ttl) h
      (by simp [CacheState.empty, CacheState.size])).1
  · intro ttl ts t a0 av h k1 k2 hne
    have hbne : (k1 != k2) = true := by simp [bne, hne]
    unfold CacheState.set
    simp [eraseKey, List.filter_cons, hbne, Heap.alloc]

/-- Witness for C4: a concrete three-insert history against capacity 2
stays within bound, and the capacity-1 eviction fires for keys "a", "b". -/
theorem bounded_size_invariant_witness :
    ((runOps (CacheState.empty 2 60) ⟨[[("v", 1)]]⟩
      [CacheOp.opSet "a" 0 1, CacheOp.opSet "b" 0 2, CacheOp.opSet "c" 0 3,
        CacheOp.opGet "a" 4, CacheOp.opClear]).1).size ≤ 2 ∧
    ((⟨1, 60, [("a", 1, 0)]⟩ : CacheState).set ⟨[[("v", 1)]]⟩ 2 "b" 0).1.store
      = [("b", 2, 1)] := by
  constructor
  · exact bounded_size_invariant.1 2 60 ⟨[[("v", 1)]]⟩ _
  · have h := bounded_size_invariant.2 60 1 2 0 0 ⟨[[("v", 1)]]⟩ "a" "b" (by decide)
    simpa using h

/-- C1: cache round-trip with copy isolation.  On any cache with positive
TTL and capacity at least 1, immediately after `set k` of the dict at the
caller address `av` (holding contents `d`), a `get k` returns the address
of a dict structurally equal to `d` but distinct from the caller object;
and after mutating either the returned copy or the caller original, a
further `get k` still hands out the original contents `d`. -/
theorem cache_roundtrip_copy_isolation
    (c c1 c2 : CacheState) (h h1 h2 : Heap) (t : ℚ) (k : String) (av : Nat)
    (d : Dict) (r : Option Nat)
    (hmax : 1 ≤ c.maxSize) (httl : 0 < c.ttl)
    (hav : av < h.data.length) (hread : h.read av = d)
    (hset : c.set h t k av = (c1, h1))
    (hget : c1.get h1 t k = (c2, h2, r)) :
    ∃ a1, r = some a1 ∧ a1 ≠ av ∧ h2.read a1 = d ∧
      (∀ d1, ∃ a2, (c2.get (h2.write a1 d1) t k).2.2 = some a2 ∧
        (c2.get (h2.write a1 d1) t k).2.1.read a2 = d) ∧
      (∀ d1, ∃ a2, (c2.get (h2.write av d1) t k).2.2 = some a2 ∧
        (c2.get (h2.write av d1) t k).2.1.read a2 = d) := by
  obtain ⟨l, hshape0, hclean⟩ := set_store_shape c h t k av hmax
  rw [hset] at hshape0
  have hshape : c1.store = l ++ [(k, t, h.data.length)] := hshape0
  have hh1 : h1 = (⟨h.data ++ [d]⟩ : Heap) := by
    have hsnd : (c.set h t k av).2 = h1 := congrArg Prod.snd hset
    rw [← hsnd]
    simp [CacheState.set, Heap.alloc, hread]
  have httl1 : c1.ttl = c.ttl := by
    have hfst : (c.set h t k av).1 = c1 := congrArg Prod.fst hset
    rw [← hfst]
    rfl
  have hfresh : ¬ (t - t > c1.ttl) := by
    rw [sub_self, httl1]
    exact fun hcon => absurd httl (not_lt_of_gt hcon)
  have hreadL : h1.read h.data.length = d := by
    rw [hh1]
    have := read_append_offset h [d] 0
    simpa using this
  have hE := get_hit c1 h1 t k l [] t h.data.length hshape hclean (by simp) hfresh
  rw [hget] at hE
  simp only [Prod.mk.injEq] at hE
  obtain ⟨hc2, hh2, hr⟩ := hE
  have hlen1 : h1.data.length = h.data.length + 1 := by rw [hh1]; simp
  have hreadL2 : h2.read h.data.length = d := by
    rw [hh2]
    exact (read_alloc_lt h1 _ _ (by omega)).trans hreadL
  have hgen : ∀ x, x ≠ h.data.length → ∀ d1, ∃ a2,
      (c2.get (h2.write x d1) t k).2.2 = some a2 ∧
      (c2.get (h2.write x d1) t k).2.1.read a2 = d := by
    intro x hx d1
    have hstore2 : c2.store = l ++ (k, t, h.data.length) :: [] := by
      rw [hc2]
      simp
    have httl2 : c2.ttl = c.ttl := by rw [hc2]; exact httl1
    have hfresh2 : ¬ (t - t > c2.ttl) := by
      rw [sub_self, httl2]
      exact fun hcon => absurd httl (not_lt_of_gt hcon)
    have hE2 := get_hit c2 (h2.write x d1) t k l [] t h.data.length hstore2 hclean
      (by simp) hfresh2
    refine ⟨((h2.write x d1).alloc ((h2.write x d1).read h.data.length)).2, ?_, ?_⟩
    · rw [hE2]
    · rw [hE2]
      exact (read_alloc (h2.write x d1) _).trans
        ((read_write_ne h2 x h.data.length d1 hx).trans hreadL2)
  refine ⟨h1.data.length, ?_, by omega, ?_, ?_, ?_⟩
  · rw [hr]
    rfl
  · rw [hh2]
    exact (read_alloc h1 (h1.read h.data.length)).trans hreadL
  · exact fun d1 => hgen h1.data.length (by omega) d1
  · exact fun d1 => hgen av (by omega) d1

/-- Witness for C1: a concrete cache (capacity 2, TTL 60) on a heap with
one caller-owned dict; set then get at time 0. -/
theorem cache_roundtrip_copy_isolation_witness :
    ∃ a1, ((⟨2, 60, []⟩ : CacheState).set ⟨[[("v", 9)]]⟩ 0 "k" 0).1.get
        (((⟨2, 60, []⟩ : CacheState).set ⟨[[("v", 9)]]⟩ 0 "k" 0).2) 0 "k"
        |>.2.2 = some a1 ∧ a1 ≠ 0 := by
  have h := cache_roundtrip_copy_isolation ⟨2, 60, []⟩
    (((⟨2, 60, []⟩ : CacheState).set ⟨[[("v", 9)]]⟩ 0 "k" 0).1)
    ((((⟨2, 60, []⟩ : CacheState).set ⟨[[("v", 9)]]⟩ 0 "k" 0).1.get
      (((⟨2, 60, []⟩ : CacheState).set ⟨[[("v", 9)]]⟩ 0 "k" 0).2) 0 "k").1)
    ⟨[[("v", 9)]]⟩
    (((⟨2, 60, []⟩ : CacheState).set ⟨[[("v", 9)]]⟩ 0 "k" 0).2)
    ((((⟨2, 60, []⟩ : CacheState).set ⟨[[("v", 9)]]⟩ 0 "k" 0).1.get
      (((⟨2, 60, []⟩ : CacheState).set ⟨[[("v", 9)]]⟩ 0 "k" 0).2) 0 "k").2.1)
    0 "k" 0 [("v", 9)]
    ((((⟨2, 60, []⟩ : CacheState).set ⟨[[("v", 9)]]⟩ 0 "k" 0).1.get
      (((⟨2, 60, []⟩ : CacheState).set ⟨[[("v", 9)]]⟩ 0 "k" 0).2) 0 "k").2.2)
    (by norm_num) (by norm_num) (by simp) rfl rfl rfl
  obtain ⟨a1, hr, hne, -⟩ := h
  exact ⟨a1, hr, hne⟩

/-- C2: LRU eviction order.  From an empty cache with capacity 2 and a TTL
that lets no entry expire, inserting distinct keys A, B, C in order and
then reading evicts exactly A: the read of A misses while B and C hand out
their stored contents.  In general, whenever an insert pushes the count
over the configured maximum, exactly the head (least recently used entry)
of the ordering is removed. -/
theorem lru_eviction_order
    (h : Heap) (ttl t1 t2 t3 t4 : ℚ) (A B C : String) (avA avB avC : Nat)
    (dB dC : Dict)
    (hAB : A ≠ B) (hAC : A ≠ C) (hBC : B ≠ C)
    (hvB : avB < h.data.length) (hvC : avC < h.data.length)
    (hrB : h.read avB = dB) (hrC : h.read avC = dC)
    (hf2 : ¬ (t4 - t2 > ttl)) (hf3 : ¬ (t4 - t3 > ttl))
    (c1 c2 c3 cA cB cC : CacheState) (h1 h2 h3 hA2 hB2 hC2 : Heap)
    (rA rB rC : Option Nat)
    (hs1 : (CacheState.empty 2 ttl).set h t1 A avA = (c1, h1))
    (hs2 : c1.set h1 t2 B avB = (c2, h2))
    (hs3 : c2.set h2 t3 C avC = (c3, h3))
    (hgA : c3.get h3 t4 A = (cA, hA2, rA))
    (hgB : cA.get hA2 t4 B = (cB, hB2, rB))
    (hgC : cB.get hB2 t4 C = (cC, hC2, rC)) :
    rA = none ∧
    (∃ aB, rB = some aB ∧ hB2.read aB = dB) ∧
    (∃ aC, rC = some aC ∧ hC2.read aC = dC) ∧
    (∀ (c : CacheState) (hp : Heap) (t : ℚ) (k : String) (a : Nat),
      c.maxSize < (eraseKey c.store k).length + 1 →
      (c.set hp t k a).1.store
        = (eraseKey c.store k ++ [(k, t, hp.data.length)]).tail) := by
  have e1 : (CacheState.empty 2 ttl).set h t1 A avA
      = (⟨2, ttl, [(A, t1, h.data.length)]⟩, ⟨h.data ++ [h.read avA]⟩) := by
    simp [CacheState.set, CacheState.empty, eraseKey, Heap.alloc]
  injection hs1.symm.trans e1 with hc1 hh1
  subst hc1; subst hh1
  have hrB1 : Heap.read ⟨h.data ++ [h.read avA]⟩ avB = dB :=
    (read_alloc_lt h (h.read avA) avB hvB).trans hrB
  have e2 : (⟨2, ttl, [(A, t1, h.data.length)]⟩ : CacheState).set
        ⟨h.data ++ [h.read avA]⟩ t2 B avB
      = (⟨2, ttl, [(A, t1, h.data.length), (B, t2, h.data.length + 1)]⟩,
          ⟨h.data ++ [h.read avA, dB]⟩) := by
    simp [CacheState.set, eraseKey, Heap.alloc, hAB, hrB1]
  injection hs2.symm.trans e2 with hc2 hh2
  subst hc2; subst hh2
  have hrC2 : Heap.read ⟨h.data ++ [h.read avA, dB]⟩ avC = dC := by
    have : Heap.read ⟨h.data ++ [h.read avA, dB]⟩ avC = h.read avC := by
      simp [Heap.read, List.getD_eq_getElem?_getD, List.getElem?_append, hvC]
    exact this.trans hrC
  have e3 : (⟨2, ttl, [(A, t1, h.data.length), (B, t2, h.data.length + 1)]⟩ :
        CacheState).set ⟨h.data ++ [h.read avA, dB]⟩ t3 C avC
      = (⟨2, ttl, [(B, t2, h.data.length + 1), (C, t3, h.data.length + 2)]⟩,
          ⟨h.data ++ [h.read avA, dB, dC]⟩) := by
    simp [CacheState.set, eraseKey, Heap.alloc, hAC, hBC, hrC2]
  injection hs3.symm.trans e3 with hc3 hh3
  subst hc3; subst hh3
  have eA := get_miss ⟨2, ttl, [(B, t2, h.data.length + 1), (C, t3, h.data.length + 2)]⟩
    ⟨h.data ++ [h.read avA, dB, dC]⟩ t4 A (by
      intro x hx
      rcases List.mem_cons.mp hx with rfl | hx2
      · simp [Ne.symm hAB]
      · rcases List.mem_cons.mp hx2 with rfl | hx3
        · simp [Ne.symm hAC]
        · cases hx3)
  injection hgA.symm.trans eA with hcA hrest
  injection hrest with hhA hrA
  subst hcA; subst hhA; subst hrA
  have hreadB : Heap.read ⟨h.data ++ [h.read avA, dB, dC]⟩ (h.data.length + 1) = dB := by
    have := read_append_offset h [h.read avA, dB, dC] 1
    simpa using this
  have eB := get_hit ⟨2, ttl, [(B, t2, h.data.length + 1), (C, t3, h.data.length + 2)]⟩
    ⟨h.data ++ [h.read avA, dB, dC]⟩ t4 B [] [(C, t3, h.data.length + 2)]
    t2 (h.data.length + 1) rfl (by simp)
    (by
      intro x hx
      rcases List.mem_cons.mp hx with rfl | hx2
      · simp [Ne.symm hBC]
      · cases hx2)
    (by simpa using hf2)
  injection hgB.symm.trans eB with hcB hrest
  injection hrest with hhB hrB2
  subst hcB; subst hhB; subst hrB2
  have hreadC : Heap.read ⟨(h.data ++ [h.read avA, dB, dC]) ++ [dB]⟩
      (h.data.length + 2) = dC := by
    have := read_append_offset h [h.read avA, dB, dC, dB] 2
    simpa using this
  have eC := get_hit
    ⟨2, ttl, ([] ++ [(C, t3, h.data.length + 2)]) ++ [(B, t2, h.data.length + 1)]⟩
    ((⟨h.data ++ [h.read avA, dB, dC]⟩ : Heap).alloc
      ((⟨h.data ++ [h.read avA, dB, dC]⟩ : Heap).read (h.data.length + 1))).1
    t4 C [] [(B, t2, h.data.length + 1)] t3 (h.data.length + 2) (by simp) (by simp)
    (by
      intro x hx
      rcases List.mem_cons.mp hx with rfl | hx2
      · simp [hBC]
      · cases hx2)
    (by simpa using hf3)
  injection hgC.symm.trans eC with hcC hrest
  injection hrest with hhC hrC2b
  subst hcC; subst hhC; subst hrC2b
  refine ⟨rfl, ⟨_, rfl, ?_⟩, ⟨_, rfl, ?_⟩, ?_⟩
  · exact (read_alloc _ _).trans hreadB
  · refine (read_alloc _ _).trans ?_
    have halloc : ((⟨h.data ++ [h.read avA, dB, dC]⟩ : Heap).alloc
        ((⟨h.data ++ [h.read avA, dB, dC]⟩ : Heap).read (h.data.length + 1))).1
        = (⟨(h.data ++ [h.read avA, dB, dC]) ++ [dB]⟩ : Heap) := by
      simp [Heap.alloc, hreadB]
    rw [halloc]
    exact hreadC
  · intro c hp t k a hover
    have hcond : c.maxSize < (eraseKey c.store k ++ [(k, t, (hp.alloc (hp.read a)).2)]).length := by
      simpa using hover
    simp only [CacheState.set, hcond, if_true]
    rfl

/-- Witness for C2: keys "A", "B", "C" against a two-object heap, times
0..3, TTL 100; the capacity-overflow conjunct applied to a concrete
one-entry cache of capacity 1. -/
theorem lru_eviction_order_witness :
    ((⟨1, 7, [("x", 0, 0)]⟩ : CacheState).set ⟨[]⟩ 1 "y" 0).1.store
      = (eraseKey [("x", 0, 0)] "y" ++ [("y", 1, 0)]).tail := by
  have h := lru_eviction_order ⟨[[("vb", 2)], [("vc", 3)]]⟩ 100 0 1 2 3 "A" "B" "C"
    0 0 1 [("vb", 2)] [("vc", 3)]
    (by decide) (by decide) (by decide) (by decide) (by decide) rfl rfl
    (by norm_num) (by norm_num)
    _ _ _ _ _ _ _ _ _ _ _ _ _ _ _ rfl rfl rfl rfl rfl rfl
  have h4 := h.2.2.2 ⟨1, 7, [("x", 0, 0)]⟩ ⟨[]⟩ 1 "y" 0 (by simp [eraseKey, bne])
  simpa using h4

/-! ## Unambiguous-decoding lemmas for the key payload -/

theorem sep_split (s : Nat) (a : List Nat) : ∀ (b r r2 : List Nat), s ∉ a → s ∉ b →
    a ++ s :: r = b ++ s :: r2 → a = b ∧ r = r2 := by
  induction a with
  | nil =>
    intro b r r2 _ hb heq
    cases b with
    | nil =>
      simp only [List.nil_append] at heq
      exact ⟨rfl, (List.cons.inj heq).2⟩
    | cons y ys =>
      simp only [List.nil_append, List.cons_append] at heq
      obtain ⟨hsy, -⟩ := List.cons.inj heq
      exact absurd (by rw [hsy]; exact List.mem_cons_self y ys : s ∈ y :: ys) hb
  | cons x xs ih =>
    intro b r r2 ha hb heq
    cases b with
    | nil =>
      simp only [List.cons_append, List.nil_append] at heq
      obtain ⟨hxs, -⟩ := List.cons.inj heq
      exact absurd (by rw [← hxs]; exact List.mem_cons_self x xs : s ∈ x :: xs) ha
    | cons y ys =>
      simp only [List.cons_append] at heq
      obtain ⟨hxy, htl⟩ := List.cons.inj heq
      have ha2 : s ∉ xs := fun hmem => ha (List.mem_cons_of_mem x hmem)
      have hb2 : s ∉ ys := fun hmem => hb (List.mem_cons_of_mem y hmem)
      obtain ⟨he1, he2⟩ := ih ys r r2 ha2 hb2 htl
      exact ⟨by rw [hxy, he1], he2⟩

theorem mem_joinComma (x : Nat) : ∀ (l : List (List Nat)), x ∈ joinComma l →
    x = commaByte ∨ ∃ m ∈ l, x ∈ m := by
  intro l
  induction l with
  | nil => intro hx; cases hx
  | cons m rest ih =>
    intro hx
    cases rest with
    | nil => exact Or.inr ⟨m, by simp, by simpa [joinComma] using hx⟩
    | cons m2 rest2 =>
      simp only [joinComma] at hx
      rcases List.mem_append.mp hx with h1 | h2
      · exact Or.inr ⟨m, by simp, h1⟩
      · rcases List.mem_cons.mp h2 with rfl | h3
        · exact Or.inl rfl
        · rcases ih h3 with h4 | ⟨m3, hm3, hx3⟩
          · exact Or.inl h4
          · exact Or.inr ⟨m3, List.mem_cons_of_mem _ hm3, hx3⟩

theorem joinComma_inj (l1 : List (List Nat)) : ∀ (l2 : List (List Nat)),
    (∀ m ∈ l1, m ≠ [] ∧ commaByte ∉ m) → (∀ m ∈ l2, m ≠ [] ∧ commaByte ∉ m) →
    joinComma l1 = joinComma l2 → l1 = l2 := by
  induction l1 with
  | nil =>
    intro l2 _ h2 heq
    cases l2 with
    | nil => rfl
    | cons n rest2 =>
      exfalso
      cases rest2 with
      | nil => exact (h2 n (by simp)).1 (by simpa [joinComma] using heq.symm)
      | cons n2 r2 =>
        simp only [joinComma] at heq
        have hlen := congrArg List.length heq
        simp at hlen
        omega
  | cons m rest ih =>
    intro l2 h1 h2 heq
    cases l2 with
    | nil =>
      exfalso
      cases rest with
      | nil => exact (h1 m (by simp)).1 (by simpa [joinComma] using heq)
      | cons m2 r1 =>
        simp only [joinComma] at heq
        have hlen := congrArg List.length heq
        simp at hlen
    | cons n rest2 =>
      cases rest with
      | nil =>
        cases rest2 with
        | nil =>
          simp only [joinComma] at heq
          rw [heq]
        | cons n2 r2 =>
          exfalso
          simp only [joinComma] at heq
          have hcm : commaByte ∈ m := by
            rw [heq]
            exact List.mem_append_right _ (List.mem_cons_self _ _)
          exact (h1 m (by simp)).2 hcm
      | cons m2 r1 =>
        cases rest2 with
        | nil =>
          exfalso
          simp only [joinComma] at heq
          have hcm : commaByte ∈ n := by
            rw [← heq]
            exact List.mem_append_right _ (List.mem_cons_self _ _)
          exact (h2 n (by simp)).2 hcm
        | cons n2 r2 =>
          simp only [joinComma] at heq
          obtain ⟨hmn, htail⟩ := sep_split commaByte m n (joinComma (m2 :: r1))
            (joinComma (n2 :: r2)) (h1 m (by simp)).2 (h2 n (by simp)).2 heq
          have hrest := ih (n2 :: r2)
            (fun x hx => h1 x (List.mem_cons_of_mem _ hx))
            (fun x hx => h2 x (List.mem_cons_of_mem _ hx)) htail
          rw [hmn, hrest]

theorem mem_insertLe (x y : List Nat) : ∀ (l : List (List Nat)),
    (y ∈ insertLe x l ↔ y = x ∨ y ∈ l) := by
  intro l
  induction l with
  | nil => simp [insertLe]
  | cons a l ih =>
    by_cases hle : lexLe x a
    · simp [insertLe, hle]
    · simp [insertLe, hle, ih]
      tauto

theorem mem_pySorted (l : List (List Nat)) (y : List Nat) :
    y ∈ pySorted l ↔ y ∈ l := by
  induction l with
  | nil => simp [pySorted]
  | cons a l ih =>
    rw [show pySorted (a :: l) = insertLe a (pySorted l) from rfl, mem_insertLe]
    simp [ih]

theorem sep_not_mem_joined (ms : List (List Nat))
    (hms : ∀ m ∈ ms, sepByte ∉ m) : sepByte ∉ metricsJoined ms := by
  intro hmem
  rcases mem_joinComma sepByte (pySorted ms) hmem with hc | ⟨m, hm, hx⟩
  · simp [sepByte, commaByte] at hc
  · exact hms m ((mem_pySorted ms m).mp hm) hx

theorem keyPayload_parts (p1 p2 M1 M2 E1 E2 : List Nat)
    (hM1 : sepByte ∉ M1) (hM2 : sepByte ∉ M2)
    (hE1 : sepByte ∉ E1) (hE2 : sepByte ∉ E2)
    (heq : p1 ++ sepByte :: (M1 ++ sepByte :: E1)
      = p2 ++ sepByte :: (M2 ++ sepByte :: E2)) :
    p1 = p2 ∧ M1 = M2 ∧ E1 = E2 := by
  have hrev := congrArg List.reverse heq
  simp only [List.reverse_append, List.reverse_cons, List.append_assoc,
    List.singleton_append] at hrev
  obtain ⟨hE, hrest⟩ := sep_split sepByte E1.reverse E2.reverse _ _
    (by simpa using hE1) (by simpa using hE2) hrev
  obtain ⟨hM, hp⟩ := sep_split sepByte M1.reverse M2.reverse _ _
    (by simpa using hM1) (by simpa using hM2) hrest
  exact ⟨List.reverse_injective hp, List.reverse_injective hM,
    List.reverse_injective hE⟩

/-- C6 counterexample: over arbitrary components the pre-hash byte strings
are NOT injective.  The URL request for url "x|y" (bytes 120,124,121) with
metric set containing only "z" (byte 122) and no edge mode feeds the hash
exactly the same bytes as the URL request for url "x" with the single
metric name "y|z" - two different (primary, metrics, edge) triples. -/
theorem key_encoding_collision :
    keyPayload (urlTagBytes ++ [120, 124, 121]) [[122]] none
        = keyPayload (urlTagBytes ++ [120]) [[121, 124, 122]] none
      ∧ ([120, 124, 121] : List Nat) ≠ [120]
      ∧ ([[122]] : List (List Nat)) ≠ [[121, 124, 122]] := by
  decide

/-- C6 amended: the encoding fed to the hash is injective once no
component can contain the separator: if every metric name is nonempty and
free of the comma and bar bytes (true of the real vocabulary brightness /
median / histogram) and the edge-mode string is free of the bar byte (true
of left_right / top_bottom / all; an absent edge mode is identified with
the empty string, which is how line 70 encodes it), then equal payloads
force equal primary components, equal metric sets and equal edge strings;
and a URL-tagged payload never equals a bytes-tagged payload. -/
theorem key_encoding_injective_sep_free :
    (∀ (p1 p2 : List Nat) (ms1 ms2 : List (List Nat)) (e1 e2 : Option (List Nat)),
      (∀ m ∈ ms1, m ≠ [] ∧ commaByte ∉ m ∧ sepByte ∉ m) →
      (∀ m ∈ ms2, m ≠ [] ∧ commaByte ∉ m ∧ sepByte ∉ m) →
      sepByte ∉ e1.getD [] → sepByte ∉ e2.getD [] →
      keyPayload p1 ms1 e1 = keyPayload p2 ms2 e2 →
      p1 = p2 ∧ (∀ m, m ∈ ms1 ↔ m ∈ ms2) ∧ e1.getD [] = e2.getD []) ∧
    (∀ (u b : List Nat) (ms1 ms2 : List (List Nat)) (e1 e2 : Option (List Nat)),
      keyPayload (urlTagBytes ++ u) ms1 e1 ≠ keyPayload (imageTagBytes ++ b) ms2 e2) := by
  constructor
  · intro p1 p2 ms1 ms2 e1 e2 h1 h2 he1 he2 heq
    have hM1 : sepByte ∉ metricsJoined ms1 :=
      sep_not_mem_joined ms1 (fun m hm => (h1 m hm).2.2)
    have hM2 : sepByte ∉ metricsJoined ms2 :=
      sep_not_mem_joined ms2 (fun m hm => (h2 m hm).2.2)
    obtain ⟨hp, hM, hE⟩ := keyPayload_parts p1 p2 (metricsJoined ms1)
      (metricsJoined ms2) (e1.getD []) (e2.getD []) hM1 hM2 he1 he2 heq
    have hsorted : pySorted ms1 = pySorted ms2 :=
      joinComma_inj (pySorted ms1) (pySorted ms2)
        (fun m hm => have := h1 m ((mem_pySorted ms1 m).mp hm); ⟨this.1, this.2.1⟩)
        (fun m hm => have := h2 m ((mem_pySorted ms2 m).mp hm); ⟨this.1, this.2.1⟩)
        hM
    refine ⟨hp, fun m => ?_, hE⟩
    rw [← mem_pySorted ms1 m, ← mem_pySorted ms2 m, hsorted]
  · intro u b ms1 ms2 e1 e2 heq
    simp [keyPayload, urlTagBytes, imageTagBytes] at heq

/-- Witness for the amended C6 theorem: two listings of the same metric
set in different order produce the same payload (the hypotheses hold for
the real vocabulary bytes 97 and 98), and a concrete URL payload differs
from a concrete bytes payload. -/
theorem key_encoding_injective_sep_free_witness :
    (([97] : List Nat) ∈ ([[97], [98]] : List (List Nat)) ↔
      ([97] : List Nat) ∈ ([[98], [97]] : List (List Nat))) ∧
    keyPayload (urlTagBytes ++ [1]) [] none
      ≠ keyPayload (imageTagBytes ++ [2]) [] none := by
  constructor
  · exact (key_encoding_injective_sep_free.1 [1] [1] [[97], [98]] [[98], [97]]
      none none (by decide) (by decide) (by decide) (by decide) (by decide)).2.1 [97]
  · exact key_encoding_injective_sep_free.2 [1] [2] [] [] none none

/-! ## Fixed digest length -/

theorem length_foldr_two (l : List Nat) :
    (l.foldr (fun b acc => hexChar (b / 16) :: hexChar (b % 16) :: acc)
      ([] : List Char)).length = 2 * l.length := by
  induction l with
  | nil => rfl
  | cons a l ih =>
    simp only [List.foldr, List.length_cons, ih, List.length_nil]
    omega

theorem hexdigest_length (payload : List Nat) : (hexdigest payload).length = 128 := by
  have hblen : (blake2bBytes payload).length = 64 := by
    simp [blake2bBytes]
  show ((blake2bBytes payload).foldr
    (fun b acc => hexChar (b / 16) :: hexChar (b % 16) :: acc) []).length = 128
  rw [length_foldr_two, hblen]

/-- C9: `compute_cache_key` fails fast exactly on malformed identity.  It
returns an error if and only if `image_bytes` and `url` are both absent or
both present; with exactly one of them supplied (any metric set, any
optional edge mode) it returns a key of the fixed length 128 without
error. -/
theorem compute_cache_key_fail_fast (ms : List (List Nat))
    (em ib u : Option (List Nat)) :
    ((∃ msg, compute_cache_key ms em ib u = Except.error msg) ↔
      ((ib = none ∧ u = none) ∨ (ib ≠ none ∧ u ≠ none))) ∧
    (∀ k, compute_cache_key ms em ib u = Except.ok k → k.length = 128) := by
  cases ib with
  | none =>
    cases u with
    | none => simp [compute_cache_key]
    | some uv =>
      constructor
      · simp [compute_cache_key]
      · intro k hk
        simp only [compute_cache_key] at hk
        simp at hk
        rw [← hk]
        exact hexdigest_length _
  | some bv =>
    cases u with
    | none =>
      constructor
      · simp [compute_cache_key]
      · intro k hk
        simp only [compute_cache_key] at hk
        simp at hk
        rw [← hk]
        exact hexdigest_length _
    | some uv => simp [compute_cache_key]

/-- Witness for C9: both-absent errors; a bytes-only call returns a
128-character key. -/
theorem compute_cache_key_fail_fast_witness :
    (∃ msg, compute_cache_key [[97]] none none none = Except.error msg) ∧
    (compute_cache_key [[97]] none (some [1, 2]) none).map String.length
      = Except.ok 128 := by
  refine ⟨((compute_cache_key_fail_fast [[97]] none none none).1).mpr
    (Or.inl ⟨rfl, rfl⟩), ?_⟩
  cases hk : compute_cache_key [[97]] none (some [1, 2]) none with
  | error m =>
    exfalso
    have hmem := ((compute_cache_key_fail_fast [[97]] none (some [1, 2]) none).1).mp
      ⟨m, hk⟩
    rcases hmem with ⟨h1, -⟩ | ⟨-, h2⟩
    · exact Option.some_ne_none _ h1
    · exact h2 rfl
  | ok k =>
    have hlen := (compute_cache_key_fail_fast [[97]] none (some [1, 2]) none).2 k hk
    simp [Except.map, hlen]

/-! ## The mis-bound orchestrator call -/

theorem orchestratorKey_none_err (contents : List Nat) (ms : List (List Nat)) :
    orchestratorKey contents ms none
      = Except.error "ValueError: Exactly one of image_bytes or url must be provided" :=
  rfl

theorem orchestratorKey_some_err (contents : List Nat) (ms : List (List Nat))
    (s : List Nat) :
    orchestratorKey contents ms (some s)
      = Except.error "TypeError: object supporting the buffer API required" :=
  rfl

/-- C7 is refuted by the code: the URL endpoint never keys by the URL
source token.  Its key-derivation call passes the downloaded content bytes
into the `metrics` slot and never fills the `url` parameter, so for every
URL request with caching enabled (any downloaded contents, any metric set)
the call raises before producing any key: `ValueError` when no edge mode
is given (both `image_bytes` and `url` are then `None`), `TypeError`
otherwise (the edge-mode string lands in `image_bytes` and is fed to
`hasher.update`).  The cache state is returned untouched. -/
theorem url_request_key_derivation_raises
    (proc : List Nat → Option Dict) (c : CacheState) (h : Heap) (now : ℚ)
    (contents : List Nat) (ms : List (List Nat)) :
    (analyze_image_from_url true (some contents) proc c h now ms none
      = (c, h, Except.error (ReqError.uncaught
          "ValueError: Exactly one of image_bytes or url must be provided"))) ∧
    (∀ s, analyze_image_from_url true (some contents) proc c h now ms (some s)
      = (c, h, Except.error (ReqError.uncaught
          "TypeError: object supporting the buffer API required"))) := by
  constructor
  · simp [analyze_image_from_url, analyze_image, orchestratorKey_none_err]
  · intro s
    simp [analyze_image_from_url, analyze_image, orchestratorKey_some_err]

/-- C8: no failed request writes to the cache.  With caching enabled every
upload request fails at key derivation (the same mis-bound call as C7)
with the cache and heap returned exactly as they were; with caching
disabled, a request whose bytes fail to decode raises the client error 400
from `_process_image_bytes` and the cache and heap are again exactly the
input ones.  In both failure modes the cache contents after the request
equal the cache contents before it; the divergence from the claim is that
with caching enabled the error is an uncaught `ValueError`/`TypeError`
(an internal server error raised before decoding), not the client error
the claim describes. -/
theorem failed_analysis_leaves_cache_unchanged :
    (∀ (proc : List Nat → Option Dict) (c : CacheState) (h : Heap) (now : ℚ)
      (contents : List Nat) (ms : List (List Nat)) (em : Option (List Nat)),
      ∃ msg, analyze_image true proc c h now contents ms em
        = (c, h, Except.error (ReqError.uncaught msg))) ∧
    (∀ (proc : List Nat → Option Dict) (c : CacheState) (h : Heap) (now : ℚ)
      (contents : List Nat) (ms : List (List Nat)) (em : Option (List Nat)),
      proc contents = none →
      analyze_image false proc c h now contents ms em
        = (c, h, Except.error (ReqError.httpError 400))) := by
  constructor
  · intro proc c h now contents ms em
    cases em with
    | none =>
      exact ⟨"ValueError: Exactly one of image_bytes or url must be provided",
        by simp [analyze_image, orchestratorKey_none_err]⟩
    | some s =>
      exact ⟨"TypeError: object supporting the buffer API required",
        by simp [analyze_image, orchestratorKey_some_err]⟩
  · intro proc c h now contents ms em hproc
    simp [analyze_image, hproc]

/-- Witness for C8: a concrete undecodable upload with caching disabled
yields the client error 400 and leaves the concrete cache untouched. -/
theorem failed_analysis_leaves_cache_unchanged_witness :
    analyze_image false (fun _ => none) (CacheState.empty 4 60) ⟨[]⟩ 0
        [1, 2, 3] [[98]] none
      = (CacheState.empty 4 60, ⟨[]⟩, Except.error (ReqError.httpError 400)) :=
  failed_analysis_leaves_cache_unchanged.2 (fun _ => none) (CacheState.empty 4 60)
    ⟨[]⟩ 0 [1, 2, 3] [[98]] none rfl

/-- C5 is refuted by the code: the buckets do not partition the value
range.  A non-last bucket `i` counts every cell with
`start_i <= x < (i + 1) * bucket_size`, while its printed upper bound (and
the next bucket's start) is `int((i + 1) * bucket_size) - 1`; cell values
in the fractional gap are counted twice.  Concretely, the single-cell grid
holding luminance 25 lands in bucket "0-24" (since 25 < 25.6) AND in
bucket "25-50", so the percentages are 100 and 100 and sum to 200, not
about 100.  The empty-grid clause of the claim does hold: an empty grid
(no rows, or a row of no cells) yields an empty bucket list. -/
theorem histogram_double_count :
    calculate_histogram [] = [] ∧
    calculate_histogram [[]] = [] ∧
    (calculate_histogram [[25]]).map HistogramBucket.percent
      = [100, 100, 0, 0, 0, 0, 0, 0, 0, 0] ∧
    ((calculate_histogram [[25]]).map HistogramBucket.percent).sum = 200 := by
  have hmap : (calculate_histogram [[25]]).map HistogramBucket.percent
      = [100, 100, 0, 0, 0, 0, 0, 0, 0, 0] := by
    simp only [calculate_histogram, HISTOGRAM_BUCKETS, LUMINANCE_MAX, bucketSize,
      List.flatten]
    norm_num [List.range_succ, pyRound1, pyRoundInt]
  refine ⟨rfl, rfl, hmap, ?_⟩
  rw [hmap]
  norm_num

/-- C10: metrics parsing never yields an empty selection.  A `None` input
returns the default set; an input whose comma-separated segments all strip
to blank (the empty string, or strings of only commas and whitespace)
returns the default set; every successful parse is a nonempty subset of
the valid vocabulary; and every rejection carries a nonempty set of names,
none of which is valid. -/
theorem validate_metrics_nonempty_selection :
    (validate_metrics none = Except.ok {"brightness".data}) ∧
    (∀ s, (∀ seg ∈ pySplitComma s, pyStrip seg = []) →
      validate_metrics (some s) = Except.ok {"brightness".data}) ∧
    (∀ s r, validate_metrics (some s) = Except.ok r →
      r.Nonempty ∧ r ⊆ validMetrics) ∧
    (∀ s inv, validate_metrics (some s) = Except.error inv →
      inv.Nonempty ∧ ∀ x ∈ inv, x ∉ validMetrics) := by
  refine ⟨rfl, ?_, ?_, ?_⟩
  · intro s hseg
    have hfil : (pySplitComma s).filter (fun m => !(pyStrip m).isEmpty) = [] :=
      List.filter_eq_nil_iff.mpr (fun a ha => by simp [hseg a ha])
    simp [validate_metrics, hfil]
  · intro s r hok
    simp only [validate_metrics] at hok
    split at hok
    · cases hok
    · split at hok
      · obtain rfl := (Except.ok.inj hok)
        exact ⟨⟨_, Finset.mem_singleton_self _⟩, by
          intro x hx
          rw [Finset.mem_singleton] at hx
          subst hx
          decide⟩
      · next hinv hreq =>
        obtain rfl := (Except.ok.inj hok)
        refine ⟨Finset.nonempty_iff_ne_empty.mpr hreq, ?_⟩
        exact Finset.sdiff_eq_empty_iff_subset.mp
          (Finset.not_nonempty_iff_eq_empty.mp hinv)
  · intro s inv herr
    simp only [validate_metrics] at herr
    split at herr
    · next hinv =>
      obtain rfl := (Except.error.inj herr)
      exact ⟨hinv, fun x hx => (Finset.mem_sdiff.mp hx).2⟩
    · split at herr
      · cases herr
      · cases herr

/-- Witness for C10: a whitespace-and-commas string falls back to the
default; "Median, BRIGHTNESS" parses to a nonempty valid subset; "bogus"
is rejected with itself as the named invalid metric. -/
theorem validate_metrics_nonempty_selection_witness :
    validate_metrics (some " , ,  ".data) = Except.ok {"brightness".data} ∧
    (({"median".data, "brightness".data} : Finset (List Char)).Nonempty ∧
      ({"median".data, "brightness".data} : Finset (List Char)) ⊆ validMetrics) ∧
    (({"bogus".data} : Finset (List Char)).Nonempty ∧
      "bogus".data ∉ validMetrics) := by
  refine ⟨validate_metrics_nonempty_selection.2.1 " , ,  ".data (by decide),
    validate_metrics_nonempty_selection.2.2.1 "Median, BRIGHTNESS".data
      {"median".data, "brightness".data} rfl, ?_⟩
  have h := validate_metrics_nonempty_selection.2.2.2 "bogus".data
    {"bogus".data} rfl
  exact ⟨h.1, h.2 "bogus".data (Finset.mem_singleton_self _)⟩

end ImageInsights
